import Mathlib

/-!
Verification of the `gocols` select tool: a shallow embedding of
`select.go` (and the `config` package's `DTsize` table) together with
theorems about the embedded definitions.

Byte streams are modelled as `List Nat` (each entry a byte value),
machine integers as `Nat`/`Int` with explicit `% 2^64` where Go's
`uint64` wraps, and fallible code (Go `panic`) as `Option`/explicit
error results.
-/

namespace Gocols

/-! ## sort.Search (Go standard library)

`sort.Search(n, f)` runs a binary search: `i, j := 0, n`, and while
`i < j` it probes `h := (i+j)/2`, moving `i` to `h+1` when `!f(h)` and
`j` to `h` otherwise, finally returning `i`. -/

def searchLoop (f : Nat → Bool) (i j : Nat) : Nat :=
  if _h : i < j then
    let h := (i + j) / 2
    if !(f h) then searchLoop f (h + 1) j else searchLoop f i h
  else
    i
termination_by j - i
decreasing_by
  · have h1 : (i + j) / 2 < j := by omega
    omega
  · have h1 : i ≤ (i + j) / 2 := by omega
    have h2 : (i + j) / 2 < j := by omega
    omega

def sortSearch (n : Nat) (f : Nat → Bool) : Nat := searchLoop f 0 n

/-- The loop invariant of `sort.Search`: provided `f` is monotone on
`[i, j)` (false then true, as `sort.Search`'s contract requires), the
result `k` lies in `[i, j]`, `f` is false on `[i, k)`, and if `k < j`
then `f k` is true. -/
theorem searchLoop_stop (f : Nat → Bool) (i j : Nat) (h : ¬ i < j) :
    searchLoop f i j = i := by
  rw [searchLoop]; simp [h]

theorem searchLoop_step (f : Nat → Bool) (i j : Nat) (h : i < j) :
    searchLoop f i j =
      if !(f ((i + j) / 2)) then searchLoop f ((i + j) / 2 + 1) j
      else searchLoop f i ((i + j) / 2) := by
  rw [searchLoop, dif_pos h]

theorem searchLoop_spec (f : Nat → Bool) : ∀ n i j, j - i ≤ n → i ≤ j →
    (∀ m m', i ≤ m → m ≤ m' → m' < j → f m = true → f m' = true) →
    (i ≤ searchLoop f i j ∧ searchLoop f i j ≤ j) ∧
    (∀ m, i ≤ m → m < searchLoop f i j → f m = false) ∧
    (searchLoop f i j < j → f (searchLoop f i j) = true) := by
  intro n
  induction n with
  | zero =>
    intro i j hn hij _
    have : i = j := by omega
    subst this
    rw [searchLoop_stop f i i (by omega)]
    exact ⟨⟨le_refl i, le_refl i⟩, by omega, by omega⟩
  | succ n ihn =>
    intro i j hn hij hmono
    rcases Nat.lt_or_ge i j with hlt | hge
    · rw [searchLoop_step f i j hlt]
      have hh1 : i ≤ (i + j) / 2 := by omega
      have hh2 : (i + j) / 2 < j := by omega
      cases hfh : f ((i + j) / 2) with
      | false =>
        rw [if_pos (by rfl)]
        obtain ⟨⟨ha, hb⟩, hc, hd⟩ := ihn ((i + j) / 2 + 1) j (by omega) (by omega)
          (fun m m' h1 h2 h3 => hmono m m' (by omega) h2 h3)
        refine ⟨⟨by omega, hb⟩, ?_, hd⟩
        intro m hm1 hm2
        rcases Nat.lt_or_ge m ((i + j) / 2 + 1) with hmlt | hmge
        · cases hmt : f m with
          | false => rfl
          | true =>
            have := hmono m ((i + j) / 2) hm1 (by omega) hh2 hmt
            rw [this] at hfh
            exact absurd hfh (by simp)
        · exact hc m hmge hm2
      | true =>
        rw [if_neg (by simp)]
        obtain ⟨⟨ha, hb⟩, hc, hd⟩ := ihn i ((i + j) / 2) (by omega) (by omega)
          (fun m m' h1 h2 h3 => hmono m m' h1 h2 (by omega))
        refine ⟨⟨ha, by omega⟩, hc, ?_⟩
        intro _
        rcases Nat.lt_or_ge (searchLoop f i ((i + j) / 2)) ((i + j) / 2) with hlt2 | hge2
        · exact hd hlt2
        · have heq : searchLoop f i ((i + j) / 2) = (i + j) / 2 := by omega
          rw [heq, hfh]
    · rw [searchLoop_stop f i j (by omega)]
      exact ⟨⟨le_refl i, hij⟩, by omega, by omega⟩

/-! ## contains (select.go lines 120-133)

`contains(a, v)` runs `sort.Search(len(a), func(i) { return a[i] >= v })`
and reports whether the found position holds exactly `v`. -/

def contains (a : List Nat) (v : Nat) : Bool :=
  let k := sortSearch a.length (fun i => v ≤ a.getD i 0)
  if a.length ≤ k then false else a.getD k 0 == v

theorem contains_nil (v : Nat) : contains [] v = false := by
  unfold contains sortSearch
  rw [searchLoop_stop _ _ _ (by simp)]
  simp

theorem contains_eq_true_iff (a : List Nat) (v : Nat)
    (hs : a.Sorted (· ≤ ·)) : contains a v = true ↔ v ∈ a := by
  unfold contains sortSearch
  have hmono : ∀ m m', 0 ≤ m → m ≤ m' → m' < a.length →
      (decide (v ≤ a.getD m 0) = true) → (decide (v ≤ a.getD m' 0) = true) := by
    intro m m' _ hmm hm' hm
    simp only [decide_eq_true_eq] at hm ⊢
    have hmlt : m < a.length := by omega
    have hle : a.getD m 0 ≤ a.getD m' 0 := by
      rw [List.getD_eq_getElem a 0 hmlt, List.getD_eq_getElem a 0 hm']
      rcases Nat.eq_or_lt_of_le hmm with rfl | hlt
      · exact le_refl _
      · exact List.Sorted.rel_get_of_lt hs (by exact hlt)
    omega
  obtain ⟨⟨-, hub⟩, hbelow, hat⟩ :=
    searchLoop_spec (fun i => v ≤ a.getD i 0) a.length 0 a.length
      (by omega) (Nat.zero_le _) hmono
  set k := searchLoop (fun i => v ≤ a.getD i 0) 0 a.length with hk
  constructor
  · intro h
    by_cases hlen : a.length ≤ k
    · rw [if_pos hlen] at h
      exact absurd h (by simp)
    · rw [if_neg hlen, beq_iff_eq] at h
      have hklt : k < a.length := by omega
      rw [List.getD_eq_getElem a 0 hklt] at h
      rw [← h]
      exact List.getElem_mem hklt
  · intro hmem
    obtain ⟨m, hm, hget⟩ := List.mem_iff_getElem.mp hmem
    have hmge : k ≤ m := by
      by_contra hcon
      have hfalse := hbelow m (Nat.zero_le m) (by omega)
      simp only [decide_eq_false_iff_not, not_le] at hfalse
      rw [List.getD_eq_getElem a 0 hm, hget] at hfalse
      omega
    have hklt : k < a.length := by omega
    have htrue := hat hklt
    simp only [decide_eq_true_eq] at htrue
    have hle : a.getD k 0 ≤ a.getD m 0 := by
      rw [List.getD_eq_getElem a 0 hklt, List.getD_eq_getElem a 0 hm]
      rcases Nat.eq_or_lt_of_le hmge with rfl | hlt
      · exact le_refl _
      · exact List.Sorted.rel_get_of_lt hs (by exact hlt)
    rw [List.getD_eq_getElem a 0 hm, hget] at hle
    have heq : a.getD k 0 = v := le_antisymm hle htrue
    rw [if_neg (by omega : ¬ a.length ≤ k), heq]
    exact beq_self_eq_true v

/-- C3: for every ascending-sorted array (duplicates permitted, possibly
empty) and every value `v`, `contains a v` is true iff some element of
`a` equals `v`; it is false whenever `v` exceeds all elements, and in
particular on the empty array. -/
theorem contains_correct (a : List Nat) (v : Nat)
    (hs : a.Sorted (· ≤ ·)) :
    (contains a v = true ↔ v ∈ a) ∧
    ((∀ x ∈ a, x < v) → contains a v = false) ∧
    contains ([] : List Nat) v = false := by
  refine ⟨contains_eq_true_iff a v hs, ?_, ?_⟩
  · intro hgt
    by_contra hcon
    have : contains a v = true := by
      cases h : contains a v
      · exact absurd h hcon
      · rfl
    have hv : v ∈ a := (contains_eq_true_iff a v hs).mp this
    exact absurd rfl (Nat.ne_of_lt (hgt v hv))
  · exact contains_nil v

theorem contains_correct_witness :
    (([3, 7, 9] : List Nat).Sorted (· ≤ ·)) ∧
    ((contains [3, 7, 9] 7 = true ↔ (7 : Nat) ∈ [3, 7, 9]) ∧
     ((∀ x ∈ [3, 7, 9], x < 7) → contains [3, 7, 9] 7 = false) ∧
     contains ([] : List Nat) 7 = false) :=
  ⟨by simp, contains_correct [3, 7, 9] 7 (by simp)⟩

/-! ## getix (select.go lines 136-167)

The mask builder reads fixed-width 8-byte little-endian unsigned
integers from the key column's decompressed byte stream until EOF
(`binary.Read` with a `uint64` destination), appending
`contains(ids, x)` for each decoded value.  A clean EOF (empty stream)
ends the loop; a partial record (1-7 trailing bytes) is an
`io.ErrUnexpectedEOF` and panics, modelled as `none`. -/

/-- Little-endian byte encoding of `x` in `k` bytes (least significant
byte first), as `encoding/binary` lays out a `uint64` for `k = 8`. -/
def leBytes : Nat → Nat → List Nat
  | 0, _ => []
  | k + 1, x => (x % 256) :: leBytes k (x / 256)

/-- Value of a little-endian byte list. -/
def leVal : List Nat → Nat
  | [] => 0
  | b :: bs => b + 256 * leVal bs

def u64le (x : Nat) : List Nat := leBytes 8 x

def getix (ids : List Nat) : List Nat → Option (List Bool)
  | [] => some []
  | b0 :: b1 :: b2 :: b3 :: b4 :: b5 :: b6 :: b7 :: rest =>
    (getix ids rest).map
      (fun m => contains ids (leVal [b0, b1, b2, b3, b4, b5, b6, b7]) :: m)
  | _ => none

theorem leVal_leBytes : ∀ k x, x < 256 ^ k → leVal (leBytes k x) = x := by
  intro k
  induction k with
  | zero =>
    intro x hx
    interval_cases x
    rfl
  | succ k ih =>
    intro x hx
    show x % 256 + 256 * leVal (leBytes k (x / 256)) = x
    rw [ih (x / 256) (by
      have : 256 ^ (k + 1) = 256 ^ k * 256 := by ring
      rw [this] at hx
      omega)]
    omega

theorem leBytes_length : ∀ k x, (leBytes k x).length = k := by
  intro k
  induction k with
  | zero => intro x; rfl
  | succ k ih => intro x; show (leBytes k (x / 256)).length + 1 = k + 1; rw [ih]

theorem getix_cons (ids : List Nat) (x : Nat) (hx : x < 2 ^ 64)
    (rest : List Nat) :
    getix ids (u64le x ++ rest) =
      (getix ids rest).map (fun m => contains ids x :: m) := by
  have hle : leVal (leBytes 8 x) = x := leVal_leBytes 8 x (by norm_num at hx ⊢; omega)
  show getix ids (leBytes 8 x ++ rest) = _
  have : leBytes 8 x = [x % 256, x / 256 % 256, x / 256 / 256 % 256,
      x / 256 / 256 / 256 % 256, x / 256 / 256 / 256 / 256 % 256,
      x / 256 / 256 / 256 / 256 / 256 % 256,
      x / 256 / 256 / 256 / 256 / 256 / 256 % 256,
      x / 256 / 256 / 256 / 256 / 256 / 256 / 256 % 256] := rfl
  rw [this] at hle ⊢
  show (getix ids rest).map _ = _
  rw [hle]

/-- C2: over a key-column stream that is a concatenation of 8-byte
little-endian unsigned integers, `getix` produces one mask entry per
integer, and the i-th entry is exactly `contains ids v_i` for the i-th
decoded value. -/
theorem getix_correct (ids : List Nat) (vs : List Nat)
    (hvs : ∀ v ∈ vs, v < 2 ^ 64) :
    getix ids (vs.map u64le).flatten = some (vs.map (contains ids)) := by
  induction vs with
  | nil => rfl
  | cons v vs ih =>
    rw [List.map_cons, List.flatten_cons,
      getix_cons ids v (hvs v (List.mem_cons_self v vs)),
      ih (fun w hw => hvs w (List.mem_cons_of_mem v hw))]
    rfl

theorem getix_correct_witness :
    (∀ v ∈ [1, 3, 5, 7, 7, 10], v < 2 ^ 64) ∧
    getix [3, 7, 9] (([1, 3, 5, 7, 7, 10].map u64le).flatten) =
      some [false, true, false, true, true, false] := by
  have hv : ∀ v ∈ [1, 3, 5, 7, 7, 10], v < 2 ^ 64 := by decide
  refine ⟨hv, ?_⟩
  rw [getix_correct [3, 7, 9] [1, 3, 5, 7, 7, 10] hv]
  norm_num [contains, sortSearch, searchLoop_step, searchLoop_stop]

/-! ## dofixedwidth (select.go lines 173-201)

For each mask entry the transcoder reads exactly `w` bytes
(`io.ReadFull`, which fails — a panic — when fewer than `w` bytes
remain, and trivially succeeds when `w = 0`), and writes those bytes
verbatim to the output when the entry is true. -/

def dofixedwidth (w : Nat) : List Bool → List Nat → Option (List Nat)
  | [], _ => some []
  | ii :: ix, input =>
    if w ≤ input.length then
      (dofixedwidth w ix (input.drop w)).map
        (fun out => if ii then input.take w ++ out else out)
    else
      none

/-- The mask-selected subsequence: elements of `rs` at the positions
where the mask is true, in original order. -/
def selectMask : List Bool → List α → List α
  | [], _ => []
  | _, [] => []
  | b :: bs, r :: rs => if b then r :: selectMask bs rs else selectMask bs rs

theorem selectMask_nil (rs : List α) : selectMask [] rs = [] := by
  cases rs <;> rfl

theorem selectMask_length : ∀ (ix : List Bool) (rs : List α),
    ix.length ≤ rs.length → (selectMask ix rs).length = ix.count true := by
  intro ix
  induction ix with
  | nil => intro rs _; rw [selectMask_nil]; rfl
  | cons b bs ih =>
    intro rs hlen
    cases rs with
    | nil => simp at hlen
    | cons r rs =>
      show (if b then r :: selectMask bs rs else selectMask bs rs).length = _
      cases b with
      | false =>
        rw [if_neg (by simp)]
        rw [ih rs (by simpa using hlen)]
        simp [List.count_cons]
      | true =>
        rw [if_pos rfl]
        show (selectMask bs rs).length + 1 = _
        rw [ih rs (by simpa using hlen)]
        simp [List.count_cons]

/-- The fixed-width transcoder on a stream of `w`-byte records followed
by arbitrary trailing content: it succeeds, never touches the trailing
bytes, and emits exactly the mask-selected records. -/
theorem dofixedwidth_append (w : Nat) : ∀ (ix : List Bool) (recs : List (List Nat))
    (t : List Nat), (∀ r ∈ recs, r.length = w) → ix.length ≤ recs.length →
    dofixedwidth w ix (recs.flatten ++ t) = some (selectMask ix recs).flatten := by
  intro ix
  induction ix with
  | nil => intro recs t _ _; rw [selectMask_nil]; rfl
  | cons ii ix ih =>
    intro recs t hw hlen
    cases recs with
    | nil => simp at hlen
    | cons r recs =>
      have hr : r.length = w := hw r (List.mem_cons_self r recs)
      have hassoc : (r :: recs).flatten ++ t = r ++ (recs.flatten ++ t) := by
        rw [List.flatten_cons, List.append_assoc]
      have hdrop : (r ++ (recs.flatten ++ t)).drop w = recs.flatten ++ t := by
        rw [List.drop_append_of_le_length (by omega), ← hr]
        simp
      have htake : (r ++ (recs.flatten ++ t)).take w = r := by
        rw [List.take_append_of_le_length (by omega), ← hr]
        simp
      have hlenge : w ≤ (r ++ (recs.flatten ++ t)).length := by
        rw [List.length_append]
        omega
      rw [hassoc]
      show (if w ≤ (r ++ (recs.flatten ++ t)).length then _ else none) = _
      rw [if_pos hlenge, hdrop,
        ih recs t (fun s hs => hw s (List.mem_cons_of_mem r hs)) (by simpa using hlen)]
      cases ii with
      | false =>
        show some (selectMask (false :: ix) (r :: recs)).flatten = _
        rfl
      | true =>
        show some ((r ++ (recs.flatten ++ t)).take w ++ (selectMask ix recs).flatten) = _
        rw [htake]
        show _ = some (selectMask (true :: ix) (r :: recs)).flatten
        rfl

/-! ## PutUvarint / ReadUvarint (encoding/binary) and douvarint
(select.go lines 230-260)

`binary.PutUvarint` emits base-128 digits, least significant first,
with the continuation bit (0x80) set on all but the last byte.
`binary.ReadUvarint` reads at most 10 bytes, accumulating
`x |= (b & 0x7f) << s`; a continuation byte at the 10th position, or a
final byte greater than 1 there, is an overflow error.  All read
errors (including EOF) panic in `douvarint`, modelled as `none`. -/

def putUvarint (x : Nat) : List Nat :=
  if _h : 128 ≤ x then (x % 256 ||| 128) :: putUvarint (x / 128)
  else [x % 256]
termination_by x
decreasing_by omega

/-- `ReadUvarint`'s loop with `fuel = 10 - i` iterations remaining;
`acc` and `s` are the accumulator `x` and shift `s`.  Go's `uint64`
arithmetic wraps, hence the `% 2 ^ 64`. -/
def readUvarintAux : Nat → Nat → Nat → List Nat → Option (Nat × List Nat)
  | 0, _, _, _ => none
  | _ + 1, _, _, [] => none
  | fuel + 1, acc, s, b :: rest =>
    if b % 256 < 128 then
      if fuel = 0 ∧ 1 < b % 256 then none
      else some ((acc ||| ((b % 256) <<< s)) % 2 ^ 64, rest)
    else
      readUvarintAux fuel ((acc ||| ((b % 128) <<< s)) % 2 ^ 64) (s + 7) rest

def readUvarint (bs : List Nat) : Option (Nat × List Nat) :=
  readUvarintAux 10 0 0 bs

def douvarint : List Bool → List Nat → Option (List Nat)
  | [], _ => some []
  | ii :: ix, input =>
    match readUvarint input with
    | none => none
    | some (x, rest) =>
      if ii then
        -- `m := binary.PutUvarint(b, x)` writes into the 8-byte buffer
        -- `b`; an encoding longer than 8 bytes (any `x ≥ 2^56`) indexes
        -- past the buffer and panics with index out of range
        if (putUvarint x).length ≤ 8 then
          (douvarint ix rest).map (fun out => putUvarint x ++ out)
        else none
      else douvarint ix rest

/-- Disjoint bitwise-or is addition: when `a` fits below the shift,
`a ||| (b <<< s) = a + b * 2 ^ s`. -/
theorem or_shiftLeft_eq_add (a b s : Nat) (h : a < 2 ^ s) :
    a ||| (b <<< s) = a + b * 2 ^ s := by
  apply Nat.eq_of_testBit_eq
  intro i
  rw [Nat.testBit_or, Nat.testBit_shiftLeft]
  rcases Nat.lt_or_ge i s with his | his
  · have hd : decide (i ≥ s) = false := by
      simp only [ge_iff_le, decide_eq_false_iff_not, not_le]
      exact his
    rw [hd, Bool.false_and, Bool.or_false,
      Nat.testBit_to_div_mod, Nat.testBit_to_div_mod]
    have hpow : (2 : Nat) ^ s = 2 * 2 ^ (s - i - 1) * 2 ^ i := by
      rw [Nat.mul_assoc, ← Nat.pow_add]
      show (2 : Nat) ^ s = 2 ^ 1 * 2 ^ (s - i - 1 + i)
      rw [← Nat.pow_add]
      congr 1
      omega
    rw [hpow, ← Nat.mul_assoc, Nat.add_mul_div_right _ _ (Nat.two_pow_pos i)]
    simp only [decide_eq_decide]
    have h2 : b * (2 * 2 ^ (s - i - 1)) = 2 * (b * 2 ^ (s - i - 1)) := by ring
    rw [h2]
    omega
  · have hd : decide (i ≥ s) = true := by
      simp only [ge_iff_le, decide_eq_true_eq]
      exact his
    have ha : a.testBit i = false :=
      Nat.testBit_lt_two_pow
        (lt_of_lt_of_le h (Nat.pow_le_pow_right (by norm_num) his))
    rw [hd, Bool.true_and, ha, Bool.false_or,
      Nat.testBit_to_div_mod, Nat.testBit_to_div_mod]
    have hpow : (2 : Nat) ^ i = 2 ^ s * 2 ^ (i - s) := by
      rw [← Nat.pow_add]
      congr 1
      omega
    rw [hpow, ← Nat.div_div_eq_div_mul,
      Nat.add_mul_div_right _ _ (Nat.two_pow_pos s), Nat.div_eq_of_lt h,
      Nat.zero_add]

set_option maxRecDepth 4000

/-- `byte(x) | 0x80` as Go computes the continuation byte. -/
theorem byte_or_128 (x : Nat) : x % 256 ||| 128 = x % 128 + 128 := by
  have h : x % 256 < 256 := Nat.mod_lt _ (by norm_num)
  have hall : ∀ a < 256, a ||| 128 = a % 128 + 128 := by decide
  rw [hall (x % 256) h, Nat.mod_mod_of_dvd x (by norm_num : (128 : Nat) ∣ 256)]

theorem putUvarint_small {x : Nat} (h : x < 128) : putUvarint x = [x] := by
  rw [putUvarint, dif_neg (by omega), Nat.mod_eq_of_lt (by omega)]

theorem putUvarint_large {x : Nat} (h : 128 ≤ x) :
    putUvarint x = (x % 128 + 128) :: putUvarint (x / 128) := by
  rw [putUvarint, dif_pos h, byte_or_128]

theorem readUvarintAux_putUvarint :
    ∀ fuel x acc s (rest : List Nat), 1 ≤ fuel →
      x < 2 * 128 ^ (fuel - 1) → acc < 2 ^ s → s + 7 * (fuel - 1) ≤ 63 →
      readUvarintAux fuel acc s (putUvarint x ++ rest) =
        some (acc + x * 2 ^ s, rest) := by
  intro fuel
  induction fuel with
  | zero => intro x acc s rest h; omega
  | succ f ih =>
    intro x acc s rest _ hx hacc hs
    simp only [Nat.add_sub_cancel] at hx hs
    have h128 : (128 : Nat) ^ f = 2 ^ (7 * f) := by
      rw [Nat.pow_mul]
    rcases Nat.lt_or_ge x 128 with hsmall | hlarge
    · rw [putUvarint_small hsmall]
      show readUvarintAux (f + 1) acc s (x :: rest) = _
      have hxm : x % 256 = x := Nat.mod_eq_of_lt (by omega)
      rw [readUvarintAux, hxm, if_pos (by omega)]
      have hguard : ¬ (f = 0 ∧ 1 < x) := by
        rintro ⟨rfl, hgt⟩
        norm_num at hx
        omega
      rw [if_neg hguard, or_shiftLeft_eq_add acc x s hacc]
      have hlt : acc + x * 2 ^ s < 2 ^ 64 := by
        have hx2 : x < 2 ^ (7 * f + 1) := by
          calc x < 2 * 128 ^ f := hx
            _ = 2 ^ (7 * f + 1) := by rw [h128]; ring
        have h1 : acc + x * 2 ^ s < (x + 1) * 2 ^ s := by
          have hexp : (x + 1) * 2 ^ s = x * 2 ^ s + 2 ^ s := by ring
          omega
        have h2 : (x + 1) * 2 ^ s ≤ 2 ^ (7 * f + 1) * 2 ^ s :=
          Nat.mul_le_mul_right _ (by omega)
        have h3 : (2 : Nat) ^ (7 * f + 1) * 2 ^ s ≤ 2 ^ 64 := by
          rw [← Nat.pow_add]
          exact Nat.pow_le_pow_right (by norm_num) (by omega)
        omega
      rw [Nat.mod_eq_of_lt hlt]
    · rw [putUvarint_large hlarge]
      show readUvarintAux (f + 1) acc s
        ((x % 128 + 128) :: (putUvarint (x / 128) ++ rest)) = _
      have hb : (x % 128 + 128) % 256 = x % 128 + 128 := Nat.mod_eq_of_lt (by omega)
      rw [readUvarintAux, hb, if_neg (by omega)]
      have hbm : (x % 128 + 128) % 128 = x % 128 := by omega
      rw [hbm, or_shiftLeft_eq_add acc (x % 128) s hacc]
      have hf1 : 1 ≤ f := by
        by_contra hcon
        have hf0 : f = 0 := by omega
        subst hf0
        norm_num at hx
        omega
      have hpow7 : (2 : Nat) ^ (s + 7) = 128 * 2 ^ s := by
        rw [Nat.pow_add]
        norm_num [Nat.mul_comm]
      have hacc' : acc + x % 128 * 2 ^ s < 2 ^ (s + 7) := by
        have h1 : x % 128 * 2 ^ s ≤ 127 * 2 ^ s :=
          Nat.mul_le_mul_right _ (by omega)
        rw [hpow7]
        have h2 : (128 : Nat) * 2 ^ s = 127 * 2 ^ s + 2 ^ s := by ring
        omega
      have hlt64 : acc + x % 128 * 2 ^ s < 2 ^ 64 := by
        apply lt_of_lt_of_le hacc'
        exact Nat.pow_le_pow_right (by norm_num) (by omega)
      rw [Nat.mod_eq_of_lt hlt64]
      have hfpow : (128 : Nat) ^ f = 128 ^ (f - 1) * 128 := by
        conv_lhs => rw [show f = (f - 1) + 1 by omega]
        rw [Nat.pow_succ]
      have hxdiv : x / 128 < 2 * 128 ^ (f - 1) := by
        apply Nat.div_lt_of_lt_mul
        calc x < 2 * 128 ^ f := hx
          _ = 128 * (2 * 128 ^ (f - 1)) := by rw [hfpow]; ring
      rw [ih (x / 128) (acc + x % 128 * 2 ^ s) (s + 7) rest hf1 hxdiv hacc' (by omega)]
      have hsum : acc + x % 128 * 2 ^ s + x / 128 * 2 ^ (s + 7) =
          acc + x * 2 ^ s := by
        rw [hpow7]
        have hdm : x % 128 * 2 ^ s + x / 128 * (128 * 2 ^ s) = x * 2 ^ s := by
          calc x % 128 * 2 ^ s + x / 128 * (128 * 2 ^ s)
              = (128 * (x / 128) + x % 128) * 2 ^ s := by ring
            _ = x * 2 ^ s := by rw [Nat.div_add_mod]
        omega
      rw [hsum]

/-- Round trip: decoding a `PutUvarint` encoding (of a value that fits
in a `uint64`) yields the value back and leaves the rest untouched. -/
theorem readUvarint_putUvarint {x : Nat} (hx : x < 2 ^ 64) (rest : List Nat) :
    readUvarint (putUvarint x ++ rest) = some (x, rest) := by
  unfold readUvarint
  rw [readUvarintAux_putUvarint 10 x 0 0 rest (by omega)
    (by norm_num at hx ⊢; omega) (by norm_num) (by norm_num)]
  norm_num

theorem putUvarint_ne_nil (x : Nat) : putUvarint x ≠ [] := by
  rcases Nat.lt_or_ge x 128 with h | h
  · rw [putUvarint_small h]
    simp
  · rw [putUvarint_large h]
    simp

theorem putUvarint_length_pos (x : Nat) : 1 ≤ (putUvarint x).length := by
  rcases Nat.lt_or_ge x 128 with h | h
  · rw [putUvarint_small h]
    simp
  · rw [putUvarint_large h]
    simp

/-- The `PutUvarint` encoding of `x` fits in `k + 1` bytes exactly when
`x < 128 ^ (k + 1)`. -/
theorem putUvarint_length_le : ∀ k x, (putUvarint x).length ≤ k + 1 ↔ x < 128 ^ (k + 1) := by
  intro k
  induction k with
  | zero =>
    intro x
    constructor
    · intro h
      by_contra hge
      push_neg at hge
      have hge' : 128 ≤ x := by norm_num at hge; omega
      rw [putUvarint_large hge'] at h
      have hp := putUvarint_length_pos (x / 128)
      simp only [List.length_cons] at h
      omega
    · intro h
      have hx : x < 128 := by norm_num at h; omega
      rw [putUvarint_small hx]
      simp
  | succ k ih =>
    intro x
    rcases Nat.lt_or_ge x 128 with h | h
    · rw [putUvarint_small h]
      have hpow : (128 : Nat) ≤ 128 ^ (k + 1 + 1) := by
        calc (128 : Nat) = 128 ^ 1 := (pow_one 128).symm
          _ ≤ 128 ^ (k + 1 + 1) := Nat.pow_le_pow_right (by norm_num) (by omega)
      simp only [List.length_singleton]
      exact ⟨fun _ => by omega, fun _ => by omega⟩
    · rw [putUvarint_large h]
      simp only [List.length_cons]
      have hdiv := ih (x / 128)
      have hsucc : (128 : Nat) ^ (k + 1 + 1) = 128 * 128 ^ (k + 1) := pow_succ' 128 (k + 1)
      constructor
      · intro hle
        have h1 : (putUvarint (x / 128)).length ≤ k + 1 := by omega
        have h2 : x / 128 < 128 ^ (k + 1) := hdiv.mp h1
        have h3 : x < 128 * (x / 128) + 128 := by
          have hd := Nat.div_add_mod x 128
          have hm : x % 128 < 128 := Nat.mod_lt _ (by norm_num)
          omega
        have h4 : 128 * (x / 128) + 128 = 128 * (x / 128 + 1) := by ring
        have h5 : 128 * (x / 128 + 1) ≤ 128 * 128 ^ (k + 1) :=
          Nat.mul_le_mul_left 128 (by omega)
        omega
      · intro hlt
        have h2 : x / 128 < 128 ^ (k + 1) := by
          apply Nat.div_lt_of_lt_mul
          rw [← hsucc]
          exact hlt
        have := hdiv.mpr h2
        omega

theorem putUvarint_length_le_eight (x : Nat) :
    (putUvarint x).length ≤ 8 ↔ x < 2 ^ 56 := by
  have h := putUvarint_length_le 7 x
  norm_num at h ⊢
  exact h

/-- A successful `ReadUvarint` consumes at least one byte. -/
theorem readUvarintAux_consumes : ∀ fuel acc s (bs : List Nat) x rest,
    readUvarintAux fuel acc s bs = some (x, rest) → rest.length < bs.length := by
  intro fuel
  induction fuel with
  | zero =>
    intro acc s bs x rest h
    exact absurd h (by rw [readUvarintAux]; simp)
  | succ f ih =>
    intro acc s bs x rest h
    cases bs with
    | nil => exact absurd h (by rw [readUvarintAux]; simp)
    | cons b tl =>
      rw [readUvarintAux] at h
      by_cases hb : b % 256 < 128
      · rw [if_pos hb] at h
        by_cases hg : f = 0 ∧ 1 < b % 256
        · rw [if_pos hg] at h
          exact absurd h (by simp)
        · rw [if_neg hg] at h
          injection h with h1
          injection h1 with _ h3
          rw [← h3]
          simp
      · rw [if_neg hb] at h
        have := ih _ _ tl x rest h
        calc rest.length < tl.length := this
          _ < (b :: tl).length := by simp

/-- Decoding a whole byte stream as a sequence of uvarints (used to
state value-level equality of `douvarint` outputs). -/
def decodeUvarints : List Nat → Option (List Nat)
  | [] => some []
  | b :: bs =>
    match h : readUvarint (b :: bs) with
    | none => none
    | some (x, rest) => (decodeUvarints rest).map (x :: ·)
termination_by bs => bs.length
decreasing_by
  have := readUvarintAux_consumes 10 0 0 (b :: bs) x rest h
  simpa using this

theorem decodeUvarints_read (bs : List Nat) (x : Nat) (rest : List Nat)
    (hne : bs ≠ []) (hr : readUvarint bs = some (x, rest)) :
    decodeUvarints bs = (decodeUvarints rest).map (x :: ·) := by
  cases bs with
  | nil => exact absurd rfl hne
  | cons b tl =>
    rw [decodeUvarints]
    split
    · rename_i heq
      rw [heq] at hr
      exact absurd hr (by simp)
    · rename_i x' rest' heq
      rw [heq] at hr
      injection hr with h1
      injection h1 with h2 h3
      rw [h2, h3]

theorem decodeUvarints_flatten : ∀ vs : List Nat, (∀ v ∈ vs, v < 2 ^ 64) →
    decodeUvarints (vs.map putUvarint).flatten = some vs := by
  intro vs
  induction vs with
  | nil => intro _; simp [decodeUvarints]
  | cons v vs ih =>
    intro hv
    have hvlt := hv v (List.mem_cons_self v vs)
    rw [List.map_cons, List.flatten_cons,
      decodeUvarints_read _ v (vs.map putUvarint).flatten
        (by simp [putUvarint_ne_nil v])
        (readUvarint_putUvarint hvlt _),
      ih (fun w hw => hv w (List.mem_cons_of_mem v hw))]
    rfl

theorem douvarint_cons (ii : Bool) (ix : List Bool) (input : List Nat) :
    douvarint (ii :: ix) input =
      match readUvarint input with
      | none => none
      | some (x, rest) =>
        if ii then
          if (putUvarint x).length ≤ 8 then
            (douvarint ix rest).map (fun out => putUvarint x ++ out)
          else none
        else douvarint ix rest := rfl

/-- The uvarint transcoder never reads the bytes after the mask-covered
records: appending arbitrary trailing content changes nothing, whether
the transcode succeeds or panics. -/
theorem douvarint_trailing : ∀ (ix : List Bool) (vs t : List Nat),
    ix.length = vs.length → (∀ v ∈ vs, v < 2 ^ 64) →
    douvarint ix ((vs.map putUvarint).flatten ++ t) =
      douvarint ix (vs.map putUvarint).flatten := by
  intro ix
  induction ix with
  | nil => intro vs t _ _; rfl
  | cons ii ix ih =>
    intro vs t hlen hv
    cases vs with
    | nil => simp at hlen
    | cons v vs =>
      have hvlt := hv v (List.mem_cons_self v vs)
      rw [List.map_cons, List.flatten_cons, List.append_assoc, douvarint_cons,
        readUvarint_putUvarint hvlt ((vs.map putUvarint).flatten ++ t),
        douvarint_cons, readUvarint_putUvarint hvlt ((vs.map putUvarint).flatten)]
      show (if ii then
          if (putUvarint v).length ≤ 8 then
            (douvarint ix ((vs.map putUvarint).flatten ++ t)).map
              (fun out => putUvarint v ++ out)
          else none
        else douvarint ix ((vs.map putUvarint).flatten ++ t)) =
        (if ii then
          if (putUvarint v).length ≤ 8 then
            (douvarint ix ((vs.map putUvarint).flatten)).map
              (fun out => putUvarint v ++ out)
          else none
        else douvarint ix ((vs.map putUvarint).flatten))
      rw [ih vs t (by simpa using hlen) (fun w hw => hv w (List.mem_cons_of_mem v hw))]

/-- The uvarint transcoder on a stream of encoded values followed by
arbitrary trailing content: provided every *selected* value fits the
8-byte re-encoding buffer (`v < 2^56`), it succeeds, never touches the
trailing bytes, and emits the minimal encodings of exactly the
mask-selected values. -/
theorem douvarint_append_ok : ∀ (ix : List Bool) (vs t : List Nat),
    ix.length ≤ vs.length → (∀ v ∈ vs, v < 2 ^ 64) →
    (∀ v ∈ selectMask ix vs, v < 2 ^ 56) →
    douvarint ix ((vs.map putUvarint).flatten ++ t) =
      some ((selectMask ix vs).map putUvarint).flatten := by
  intro ix
  induction ix with
  | nil => intro vs t _ _ _; rw [selectMask_nil]; rfl
  | cons ii ix ih =>
    intro vs t hlen hv hsel
    cases vs with
    | nil => simp at hlen
    | cons v vs =>
      have hvlt := hv v (List.mem_cons_self v vs)
      rw [List.map_cons, List.flatten_cons, List.append_assoc, douvarint_cons,
        readUvarint_putUvarint hvlt ((vs.map putUvarint).flatten ++ t)]
      show (if ii then
          if (putUvarint v).length ≤ 8 then
            (douvarint ix ((vs.map putUvarint).flatten ++ t)).map
              (fun out => putUvarint v ++ out)
          else none
        else douvarint ix ((vs.map putUvarint).flatten ++ t)) = _
      cases ii with
      | false =>
        rw [if_neg (by simp),
          ih vs t (by simpa using hlen) (fun w hw => hv w (List.mem_cons_of_mem v hw))
            (fun w hw => hsel w hw)]
        rfl
      | true =>
        have hv56 : v < 2 ^ 56 := hsel v (List.mem_cons_self v (selectMask ix vs))
        have hfit : (putUvarint v).length ≤ 8 :=
          (putUvarint_length_le_eight v).mpr hv56
        rw [if_pos rfl, if_pos hfit,
          ih vs t (by simpa using hlen) (fun w hw => hv w (List.mem_cons_of_mem v hw))
            (fun w hw => hsel w (List.mem_cons_of_mem v hw))]
        show some (putUvarint v ++ ((selectMask ix vs).map putUvarint).flatten) = _
        rw [show selectMask (true :: ix) (v :: vs) = v :: selectMask ix vs from rfl,
          List.map_cons, List.flatten_cons]

theorem selectMask_subset : ∀ (ix : List Bool) (rs : List α) (a : α),
    a ∈ selectMask ix rs → a ∈ rs := by
  intro ix
  induction ix with
  | nil =>
    intro rs a h
    rw [selectMask_nil] at h
    exact absurd h (List.not_mem_nil a)
  | cons b bs ih =>
    intro rs a h
    cases rs with
    | nil => exact absurd h (List.not_mem_nil a)
    | cons r rs =>
      cases b with
      | true =>
        rcases List.mem_cons.mp h with rfl | h'
        · exact List.mem_cons_self a rs
        · exact List.mem_cons_of_mem r (ih rs a h')
      | false => exact List.mem_cons_of_mem r (ih rs a h)

/-- C1 counterexample: the claim quantifies over all uint64 values, but
a selected uvarint value of `2^56` (within the claim's `v < 2^64`
domain, with mask length 1 ≤ record count 1) makes the transcoder panic
— its 9-byte re-encoding overflows the 8-byte `PutUvarint` buffer — so
no output record is produced, where the claim demands the record. -/
theorem select_row_uvarint_counterexample :
    douvarint [true] (([2 ^ 56].map putUvarint).flatten) = none ∧
    (∀ v ∈ ([2 ^ 56] : List Nat), v < 2 ^ 64) ∧
    ([true] : List Bool).length ≤ ([2 ^ 56] : List Nat).length := by
  refine ⟨?_, by decide, by decide⟩
  have hflat : (([2 ^ 56] : List Nat).map putUvarint).flatten =
      putUvarint (2 ^ 56) ++ [] := by simp
  rw [hflat, douvarint_cons, readUvarint_putUvarint (by norm_num) []]
  show (if true then
      if (putUvarint (2 ^ 56)).length ≤ 8 then _ else none
    else _) = none
  rw [if_pos rfl, if_neg ?hlen]
  case hlen =>
    rw [putUvarint_length_le_eight]
    norm_num

/-- C1 amended: for every column (fixed-width and uvarint alike), with a
mask no longer than the record count of the input stream — and, for
uvarint, every selected value below `2^56`, so that its re-encoding fits
the transcoder's 8-byte scratch buffer — the output is exactly the
subsequence of input records at the true mask positions, in original
scan order, and the output row count is the number of true mask entries;
for uvarint the output decodes to exactly the selected input values (a
selected value of `2^56` or more instead crashes the program). -/
theorem select_row_correct :
    (∀ (w : Nat) (ix : List Bool) (recs : List (List Nat)),
      (∀ r ∈ recs, r.length = w) → ix.length ≤ recs.length →
      dofixedwidth w ix recs.flatten = some (selectMask ix recs).flatten ∧
      (selectMask ix recs).length = ix.count true) ∧
    (∀ (ix : List Bool) (vs : List Nat),
      ix.length ≤ vs.length → (∀ v ∈ vs, v < 2 ^ 64) →
      (∀ v ∈ selectMask ix vs, v < 2 ^ 56) →
      douvarint ix (vs.map putUvarint).flatten =
        some ((selectMask ix vs).map putUvarint).flatten ∧
      decodeUvarints ((selectMask ix vs).map putUvarint).flatten =
        some (selectMask ix vs) ∧
      (selectMask ix vs).length = ix.count true) := by
  constructor
  · intro w ix recs hw hlen
    refine ⟨?_, selectMask_length ix recs hlen⟩
    have h := dofixedwidth_append w ix recs [] hw hlen
    simpa using h
  · intro ix vs hlen hv hsel
    refine ⟨?_, ?_, selectMask_length ix vs hlen⟩
    · have h := douvarint_append_ok ix vs [] hlen hv hsel
      simpa using h
    · exact decodeUvarints_flatten (selectMask ix vs)
        (fun v hm => hv v (selectMask_subset ix vs v hm))

theorem select_row_correct_witness :
    dofixedwidth 4 [false, true, false, true, true, false]
        ([[10, 0, 0, 0], [20, 0, 0, 0], [30, 0, 0, 0], [40, 0, 0, 0],
          [50, 0, 0, 0], [60, 0, 0, 0]] : List (List Nat)).flatten =
      some [20, 0, 0, 0, 40, 0, 0, 0, 50, 0, 0, 0] ∧
    douvarint [false, true, false, true, true, false]
        (([300, 1, 4, 128, 9999, 2].map putUvarint).flatten) =
      some (([1, 128, 9999].map putUvarint).flatten) := by
  constructor
  · have h := (select_row_correct.1 4 [false, true, false, true, true, false]
      [[10, 0, 0, 0], [20, 0, 0, 0], [30, 0, 0, 0], [40, 0, 0, 0],
       [50, 0, 0, 0], [60, 0, 0, 0]] (by decide) (by decide)).1
    rw [h]
    rfl
  · have h := (select_row_correct.2 [false, true, false, true, true, false]
      [300, 1, 4, 128, 9999, 2] (by decide) (by decide) (by decide)).1
    rw [h]
    rfl

/-- C10 counterexample: a stream with more records than the mask does
not always complete without error — here the single mask-covered record
decodes to `2^56` (within the claim's uint64 domain), is selected, and
its re-encoding overflows the 8-byte `PutUvarint` buffer (a panic),
even though a trailing extra record follows. -/
theorem transcoders_trailing_counterexample :
    douvarint [true] (([2 ^ 56, 5].map putUvarint).flatten) = none ∧
    (∀ v ∈ ([2 ^ 56, 5] : List Nat), v < 2 ^ 64) ∧
    ([true] : List Bool).length < ([2 ^ 56, 5] : List Nat).length := by
  refine ⟨?_, by decide, by decide⟩
  have hflat : (([2 ^ 56, 5] : List Nat).map putUvarint).flatten =
      putUvarint (2 ^ 56) ++ (putUvarint 5 ++ []) := by simp
  rw [hflat, douvarint_cons,
    readUvarint_putUvarint (by norm_num) (putUvarint 5 ++ [])]
  show (if true then
      if (putUvarint (2 ^ 56)).length ≤ 8 then _ else none
    else _) = none
  rw [if_pos rfl, if_neg ?hlen]
  case hlen =>
    rw [putUvarint_length_le_eight]
    norm_num

/-- C10 amended: both transcoders iterate over exactly the mask
positions and never read past the records those positions consume:
appending arbitrary trailing content to the covered records never
changes the outcome (success or panic alike), and whenever the covered
records themselves transcode successfully — for uvarint, every selected
value below `2^56` — the run completes without error, silently
discarding the extras. -/
theorem transcoders_ignore_trailing :
    (∀ (w : Nat) (ix : List Bool) (recs : List (List Nat)) (t : List Nat),
      (∀ r ∈ recs, r.length = w) → ix.length = recs.length →
      dofixedwidth w ix (recs.flatten ++ t) = dofixedwidth w ix recs.flatten ∧
      (dofixedwidth w ix (recs.flatten ++ t)).isSome = true) ∧
    (∀ (ix : List Bool) (vs t : List Nat),
      ix.length = vs.length → (∀ v ∈ vs, v < 2 ^ 64) →
      douvarint ix ((vs.map putUvarint).flatten ++ t) =
        douvarint ix (vs.map putUvarint).flatten ∧
      ((∀ v ∈ selectMask ix vs, v < 2 ^ 56) →
        (douvarint ix ((vs.map putUvarint).flatten ++ t)).isSome = true)) := by
  constructor
  · intro w ix recs t hw hlen
    have h1 := dofixedwidth_append w ix recs t hw (le_of_eq hlen)
    have h2 := dofixedwidth_append w ix recs [] hw (le_of_eq hlen)
    simp only [List.append_nil] at h2
    rw [h1, h2]
    simp
  · intro ix vs t hlen hv
    refine ⟨douvarint_trailing ix vs t hlen hv, ?_⟩
    intro hsel
    rw [douvarint_append_ok ix vs t (le_of_eq hlen) hv hsel]
    rfl

theorem transcoders_ignore_trailing_witness :
    dofixedwidth 2 [true, false] (([[7, 8], [9, 10]] : List (List Nat)).flatten ++ [99, 99, 99]) =
      dofixedwidth 2 [true, false] ([[7, 8], [9, 10]] : List (List Nat)).flatten ∧
    douvarint [true] (([300].map putUvarint).flatten ++ [255, 255]) =
      douvarint [true] ([300].map putUvarint).flatten ∧
    (douvarint [true] (([300].map putUvarint).flatten ++ [255, 255])).isSome = true :=
  ⟨((transcoders_ignore_trailing.1 2 [true, false] [[7, 8], [9, 10]] [99, 99, 99]
      (by decide) (by decide)).1),
   ((transcoders_ignore_trailing.2 [true] [300] [255, 255]
      (by decide) (by decide)).1),
   ((transcoders_ignore_trailing.2 [true] [300] [255, 255]
      (by decide) (by decide)).2 (by decide))⟩

/-! ## DTsize (config package) and the dobucket dispatch
(select.go lines 279-300)

`config.DTsize` is a Go map from type-tag strings to byte widths; a
lookup of a missing key yields the zero value `0`.  `dobucket` writes
the partition's `dtypes.json` to the target, builds the mask, then for
each column dispatches on the declared type tag: `uvarint` to
`douvarint`, `varint` to `panic("varint not implemented")`, and
anything else to `dofixedwidth` with width `DTsize[dt]`. -/

def DTsize (dt : String) : Nat :=
  if dt = "uint8" then 1
  else if dt = "uint16" then 2
  else if dt = "uint32" then 4
  else if dt = "uint64" then 8
  else if dt = "float32" then 4
  else if dt = "float64" then 8
  else 0

inductive ColOut where
  | ok (bytes : List Nat)
  | varintPanic
  | streamPanic
deriving DecidableEq

def processColumn (dt : String) (ix : List Bool) (input : List Nat) : ColOut :=
  if dt = "uvarint" then
    match douvarint ix input with
    | some out => .ok out
    | none => .streamPanic
  else if dt = "varint" then .varintPanic
  else
    match dofixedwidth (DTsize dt) ix input with
    | some out => .ok out
    | none => .streamPanic

/-- Observable target-directory writes of one partition job. -/
inductive Ev where
  | writeDtypes (dtypes : List (String × String))
  | writeCol (name : String) (bytes : List Nat)
deriving DecidableEq

inductive PanicKind where
  | varintUnsupported
  | stream
deriving DecidableEq

/-- The per-column loop of `dobucket`: emits one column write per
successfully transcoded column, stopping at the first panic (writes of
columns processed before the panic are already on disk). -/
def dobucketLoop (ix : List Bool) (inputs : String → List Nat) :
    List (String × String) → List Ev × Option PanicKind
  | [] => ([], none)
  | (vn, dt) :: rest =>
    match processColumn dt ix (inputs vn) with
    | .ok out =>
      (.writeCol vn out :: (dobucketLoop ix inputs rest).1,
       (dobucketLoop ix inputs rest).2)
    | .varintPanic => ([], some .varintUnsupported)
    | .streamPanic => ([], some .stream)

/-- `dobucket`: writes the dtypes metadata, builds the mask from the key
column, then transcodes each column in order. -/
def dobucket (ids : List Nat) (dtypes : List (String × String))
    (keyStream : List Nat) (inputs : String → List Nat) :
    List Ev × Option PanicKind :=
  match getix ids keyStream with
  | none => ([Ev.writeDtypes dtypes], some .stream)
  | some ix =>
    (Ev.writeDtypes dtypes :: (dobucketLoop ix inputs dtypes).1,
     (dobucketLoop ix inputs dtypes).2)

theorem dofixedwidth_zero : ∀ (ix : List Bool) (input : List Nat),
    dofixedwidth 0 ix input = some [] := by
  intro ix
  induction ix with
  | nil => intro input; rfl
  | cons ii ix ih =>
    intro input
    show (if 0 ≤ input.length then _ else none) = _
    rw [if_pos (Nat.zero_le _), List.drop_zero, ih input]
    cases ii <;> rfl

/-- C9: an unrecognized type tag looks up width 0 in the size table, and
the fixed-width transcoder then reads zero bytes per mask position and
writes zero bytes per selected row, completing without error with an
empty output column — never an unsupported-type error. -/
theorem unknown_dtype_empty_output (dt : String)
    (hdt : dt ∉ ["uint8", "uint16", "uint32", "uint64", "float32", "float64"])
    (hu : dt ≠ "uvarint") (hv : dt ≠ "varint") :
    DTsize dt = 0 ∧
    (∀ (ix : List Bool) (input : List Nat),
      dofixedwidth (DTsize dt) ix input = some [] ∧
      processColumn dt ix input = ColOut.ok []) := by
  simp only [List.mem_cons, List.not_mem_nil, or_false, not_or] at hdt
  obtain ⟨h1, h2, h3, h4, h5, h6⟩ := hdt
  have hz : DTsize dt = 0 := by
    unfold DTsize
    rw [if_neg h1, if_neg h2, if_neg h3, if_neg h4, if_neg h5, if_neg h6]
  refine ⟨hz, fun ix input => ⟨?_, ?_⟩⟩
  · rw [hz]
    exact dofixedwidth_zero ix input
  · unfold processColumn
    rw [if_neg hu, if_neg hv, hz, dofixedwidth_zero ix input]

theorem unknown_dtype_empty_output_witness :
    DTsize "string" = 0 ∧
    (dofixedwidth (DTsize "string") [true, false, true] [1, 2, 3] = some [] ∧
     processColumn "string" [true, false, true] [1, 2, 3] = ColOut.ok []) :=
  ⟨(unknown_dtype_empty_output "string" (by decide) (by decide) (by decide)).1,
   (unknown_dtype_empty_output "string" (by decide) (by decide) (by decide)).2
     [true, false, true] [1, 2, 3]⟩

/-- Evaluation of the mask for the concrete input used below: the key
column holds the single value 1, and the identifier set is `[1]`. -/
theorem getix_single_one : getix [1] (u64le 1) = some [true] := by
  have h1 : u64le 1 = [1, 0, 0, 0, 0, 0, 0, 0] := rfl
  have h2 : contains [1] 1 = true := by
    norm_num [contains, sortSearch, searchLoop_step, searchLoop_stop]
  rw [h1]
  show (getix [1] []).map _ = _
  show some _ = _
  norm_num [leVal, h2]

/-- C6 counterexample: a partition containing a varint column does raise
the fatal unsupported-type panic, but partial output for that partition
is produced first — the dtypes metadata and the earlier uint8 column are
already written when the panic fires. -/
theorem varint_partial_output_counterexample :
    dobucket [1] [("a", "uint8"), ("b", "varint")] (u64le 1)
        (fun vn => if vn = "a" then [42] else []) =
      ([Ev.writeDtypes [("a", "uint8"), ("b", "varint")], Ev.writeCol "a" [42]],
       some PanicKind.varintUnsupported) ∧
    ([Ev.writeDtypes [("a", "uint8"), ("b", "varint")], Ev.writeCol "a" [42]] : List Ev) ≠ [] := by
  constructor
  · unfold dobucket
    rw [getix_single_one]
    rfl
  · simp

/-- C6 amended: processing a column whose declared type tag is `varint`
always raises the fatal unsupported-type panic — never a silent coercion
to another encoding, and never any output for that column — but the
partition's type-metadata file is written (and earlier columns may be)
before the panic, so the partition is not free of partial output. -/
theorem varint_always_panics :
    (∀ (ix : List Bool) (input : List Nat),
      processColumn "varint" ix input = ColOut.varintPanic) ∧
    (∀ (ids : List Nat) (dtypes : List (String × String)) (keyStream : List Nat)
        (inputs : String → List Nat),
      (dobucket ids dtypes keyStream inputs).1.head? =
        some (Ev.writeDtypes dtypes)) ∧
    (∀ (ix : List Bool) (inputs : String → List Nat) (vn : String)
        (rest : List (String × String)),
      dobucketLoop ix inputs ((vn, "varint") :: rest) =
        ([], some PanicKind.varintUnsupported)) := by
  refine ⟨fun ix input => rfl, ?_, fun ix inputs vn rest => rfl⟩
  intro ids dtypes ks inputs
  unfold dobucket
  cases getix ids ks with
  | none => rfl
  | some ix => rfl

theorem varint_always_panics_witness :
    processColumn "varint" [true] [7] = ColOut.varintPanic ∧
    dobucketLoop [true] (fun _ => [7]) [("b", "varint")] =
      ([], some PanicKind.varintUnsupported) :=
  ⟨varint_always_panics.1 [true] [7],
   varint_always_panics.2.2 [true] (fun _ => [7]) "b" []⟩

/-! ## getids (select.go lines 76-99)

The identifier loader scans lines, parses each with `strconv.Atoi`
(which parses a *signed* platform integer — 64-bit — and errors on
out-of-range values), panics on any parse error, converts with
`uint64(id)` (two's complement, i.e. reduction mod `2^64`), and sorts
ascending.  Lines model the scanner's per-line text. -/

def digitsVal : List Char → Nat → Option Nat
  | [], acc => some acc
  | c :: cs, acc =>
    if 48 ≤ c.toNat ∧ c.toNat ≤ 57 then
      digitsVal cs (acc * 10 + (c.toNat - 48))
    else none

def parseDigits : List Char → Option Nat
  | [] => none
  | cs => digitsVal cs 0

/-- `strconv.Atoi`: optional sign, decimal digits, must fit in `int64`
(`-2^63 ≤ n ≤ 2^63 - 1`); anything else is an error. -/
def atoi (s : List Char) : Option Int :=
  match s with
  | [] => none
  | c :: rest =>
    if c = '-' then
      match parseDigits rest with
      | none => none
      | some n => if n ≤ 2 ^ 63 then some (-(n : Int)) else none
    else if c = '+' then
      match parseDigits rest with
      | none => none
      | some n => if n < 2 ^ 63 then some (n : Int) else none
    else
      match parseDigits (c :: rest) with
      | none => none
      | some n => if n < 2 ^ 63 then some (n : Int) else none

/-- Go's `uint64(id)` conversion of a (possibly negative) `int`. -/
def toUint64 (i : Int) : Nat := (i % (2 ^ 64 : Int)).toNat

def parseIds : List String → Option (List Nat)
  | [] => some []
  | l :: ls =>
    match atoi l.data with
    | none => none
    | some id => (parseIds ls).map (toUint64 id :: ·)

def getids (lines : List String) : Option (List Nat) :=
  (parseIds lines).map (fun ids => ids.mergeSort (fun a b => decide (a ≤ b)))

/-- The spec's notion of a line holding a valid unsigned 64-bit integer
literal: decimal digits only, value below `2^64`. -/
def specUnsignedLiteral (s : String) : Bool :=
  match parseDigits s.data with
  | none => false
  | some n => decide (n < 2 ^ 64)

/-- C4 counterexample: `"9223372036854775808"` (that is, `2^63`) is a
valid unsigned 64-bit integer literal but the loader rejects it as a
fatal parse error, while `"-1"` is not an unsigned integer literal yet
the loader accepts it without error, as `2^64 - 1`. -/
theorem getids_unsigned_counterexample :
    specUnsignedLiteral "9223372036854775808" = true ∧
    getids ["9223372036854775808"] = none ∧
    specUnsignedLiteral "-1" = false ∧
    getids ["-1"] = some [2 ^ 64 - 1] := by
  refine ⟨by decide, by decide, by decide, ?_⟩
  show (parseIds ["-1"]).map _ = _
  have h : parseIds ["-1"] = some [2 ^ 64 - 1] := by decide
  rw [h]
  simp

theorem parseIds_isSome : ∀ lines : List String,
    (parseIds lines).isSome = true ↔ ∀ l ∈ lines, (atoi l.data).isSome = true := by
  intro lines
  induction lines with
  | nil => simp [parseIds]
  | cons l ls ih =>
    constructor
    · intro h w hw
      rcases ha : atoi l.data with _ | id
      · rw [show parseIds (l :: ls) = match atoi l.data with
            | none => none
            | some id => (parseIds ls).map (toUint64 id :: ·) from rfl,
          ha] at h
        exact absurd h (by simp)
      · rcases List.mem_cons.mp hw with rfl | hw'
        · rw [ha]; rfl
        · apply ih.mp ?_ w hw'
          rw [show parseIds (l :: ls) = match atoi l.data with
              | none => none
              | some id => (parseIds ls).map (toUint64 id :: ·) from rfl,
            ha] at h
          rcases hp : parseIds ls with _ | raw
          · rw [hp] at h
            exact absurd h (by simp)
          · simp
    · intro h
      have hl := h l (List.mem_cons_self l ls)
      rcases ha : atoi l.data with _ | id
      · rw [ha] at hl
        exact absurd hl (by simp)
      · have hls := ih.mpr (fun w hw => h w (List.mem_cons_of_mem l hw))
        rcases hp : parseIds ls with _ | raw
        · rw [hp] at hls
          exact absurd hls (by simp)
        · rw [show parseIds (l :: ls) = match atoi l.data with
              | none => none
              | some id => (parseIds ls).map (toUint64 id :: ·) from rfl,
            ha, hp]
          rfl

/-- C4 amended: the loader reads one integer literal per line; it
accepts exactly the lines that are valid *signed* 64-bit integer
literals (so unsigned literals in `[2^63, 2^64)` are fatal parse errors
and negative literals are accepted), converts each value to `uint64`
by reduction mod `2^64`, and produces the sorted (ascending)
permutation of the converted values. -/
theorem getids_signed_sorted (lines : List String) :
    ((getids lines).isSome = true ↔ ∀ l ∈ lines, (atoi l.data).isSome = true) ∧
    (∀ out, getids lines = some out → out.Sorted (· ≤ ·)) ∧
    (∀ out, getids lines = some out →
      ∃ raw, parseIds lines = some raw ∧ out.Perm raw) := by
  refine ⟨?_, ?_, ?_⟩
  · rw [← parseIds_isSome lines]
    unfold getids
    rcases parseIds lines with _ | raw <;> simp
  · intro out hout
    unfold getids at hout
    rcases hp : parseIds lines with _ | raw
    · rw [hp] at hout
      exact absurd hout (by simp)
    · rw [hp] at hout
      simp only [Option.map_some', Option.some.injEq] at hout
      rw [← hout]
      exact List.sorted_mergeSort' raw
  · intro out hout
    unfold getids at hout
    rcases hp : parseIds lines with _ | raw
    · rw [hp] at hout
      exact absurd hout (by simp)
    · rw [hp] at hout
      simp only [Option.map_some', Option.some.injEq] at hout
      exact ⟨raw, rfl, hout ▸ List.mergeSort_perm raw _⟩

theorem getids_signed_sorted_witness :
    ((getids ["10", "3"]).isSome = true ↔
      ∀ l ∈ ["10", "3"], (atoi l.data).isSome = true) ∧
    List.Sorted (· ≤ ·) [3, 10] := by
  constructor
  · exact (getids_signed_sorted ["10", "3"]).1
  · apply (getids_signed_sorted ["10", "3"]).2.1 [3, 10]
    unfold getids
    have h : parseIds ["10", "3"] = some [10, 3] := by decide
    rw [h]
    simp only [Option.map_some', Option.some.injEq]
    rw [List.mergeSort_eq_insertionSort]
    decide

/-! ## check and main's preflight (select.go lines 340-360, 362-380)

`check()` first exits when the target exists and `-replace` was not
given.  Its second block runs `ts, err := os.Stat(targetdir)` and only
when that *fails* re-stats the source; only when that also fails does it
call `os.SameFile(ts, ss)` — with both `FileInfo`s nil, which makes
`SameFile` return `false` (its type assertions fail).  So the
same-location test can never fire.  `main` checks for missing required
flags (usage + exit 1) before `check()`, and only after `check()`
returns does any filesystem mutation happen (`setupLogger` creates the
log file, then `MkdirAll`, config write, codes copy, buckets). -/

/-- Whether `check()` calls `os.Exit(1)`. -/
def checkExits (replace targetExists sourceExists : Bool) : Bool :=
  if !replace && targetExists then
    true
  else
    -- second block: only reached when stat(targetdir) fails, then only
    -- when stat(sourcedir) also fails; os.SameFile(nil, nil) = false
    if !targetExists then
      if !sourceExists then
        if false then true else false
      else false
    else false

structure Args where
  idvar : String
  idfile : String
  targetdir : String
  sourcedir : String
  replace : Bool

inductive RunOutcome where
  | usageExit
  | preflightExit
  | proceed
deriving DecidableEq

/-- `main` up to the first filesystem mutation: the outcome, paired with
the list of mutations performed before exiting (empty on both exits). -/
def mainPreflight (a : Args) (targetExists sourceExists : Bool) :
    RunOutcome × List String :=
  if a.idvar = "" ∨ a.idfile = "" ∨ a.targetdir = "" ∨ a.sourcedir = "" then
    (.usageExit, [])
  else if checkExits a.replace targetExists sourceExists then
    (.preflightExit, [])
  else
    (.proceed,
      ["create select.log", "MkdirAll targetdir", "WriteConfig",
       "copy codes dir", "setup bucket dirs", "transcode buckets"])

/-- C5 fails on the code: with the target directory equal to the source
directory (one existing location, passed as both flags) and overwrite
permitted, the preflight does not detect it, does not exit, and the run
proceeds into the mutating phase — the `SameFile` test is only evaluated
when both stats fail, where it compares nil infos and returns false. -/
theorem samedir_preflight_counterexample :
    checkExits true true true = false ∧
    (mainPreflight ⟨"idcol", "ids.txt", "d", "d", true⟩ true true).1 =
      RunOutcome.proceed ∧
    (mainPreflight ⟨"idcol", "ids.txt", "d", "d", true⟩ true true).2 ≠ [] := by
  refine ⟨rfl, rfl, by decide⟩

/-- C7: a missing required parameter yields the usage exit with no
mutation performed, and an existing target without `-replace` yields the
preflight exit with no mutation performed. -/
theorem preflight_no_mutation (a : Args) (tEx sEx : Bool) :
    ((a.idvar = "" ∨ a.idfile = "" ∨ a.targetdir = "" ∨ a.sourcedir = "") →
      mainPreflight a tEx sEx = (RunOutcome.usageExit, [])) ∧
    (a.idvar ≠ "" → a.idfile ≠ "" → a.targetdir ≠ "" → a.sourcedir ≠ "" →
      tEx = true → a.replace = false →
      mainPreflight a tEx sEx = (RunOutcome.preflightExit, [])) := by
  constructor
  · intro h
    unfold mainPreflight
    rw [if_pos h]
  · intro h1 h2 h3 h4 h5 h6
    unfold mainPreflight
    rw [if_neg (by tauto), if_pos (by rw [h5, h6]; rfl)]

theorem preflight_no_mutation_witness :
    mainPreflight ⟨"", "f", "t", "s", false⟩ false false =
      (RunOutcome.usageExit, []) ∧
    mainPreflight ⟨"idcol", "f", "t", "s", false⟩ true false =
      (RunOutcome.preflightExit, []) :=
  ⟨(preflight_no_mutation ⟨"", "f", "t", "s", false⟩ false false).1 (Or.inl rfl),
   (preflight_no_mutation ⟨"idcol", "f", "t", "s", false⟩ true false).2
     (by decide) (by decide) (by decide) (by decide) rfl rfl⟩

/-! ## The bounded scheduler (select.go lines 390-406, 279-281)

`main` creates `sem = make(chan bool, concurrency)` with
`concurrency = 20`, then for each bucket does `sem <- true` (blocking
while the buffered channel is full) followed by `go dobucket(k)`; each
`dobucket` ends with a deferred `<-sem` (run on success or failure).
After the launch loop, `main` performs `concurrency` more blocking
sends, which can all complete only after every job has received.  The
interleavings are modelled as a transition system: `chan` counts tokens
in the channel, `drains` the completed barrier sends. -/

def concurrency : Nat := 20

structure SchedState where
  pending : Nat
  running : Nat
  done : Nat
  chan : Nat
  drains : Nat
deriving DecidableEq

/-- One scheduler event: `launch` is main's `sem <- true; go dobucket(k)`
(blocked while the channel is full), `finish` is a job completing and
executing its deferred `<-sem`, `drain` is one of main's final
`concurrency` sends (only after all launches are submitted). -/
inductive SchedStep (C : Nat) : SchedState → SchedState → Prop where
  | launch (s : SchedState) (hp : 0 < s.pending) (hc : s.chan < C) :
      SchedStep C s ⟨s.pending - 1, s.running + 1, s.done, s.chan + 1, s.drains⟩
  | finish (s : SchedState) (hr : 0 < s.running) (hc : 0 < s.chan) :
      SchedStep C s ⟨s.pending, s.running - 1, s.done + 1, s.chan - 1, s.drains⟩
  | drain (s : SchedState) (hp : s.pending = 0) (hd : s.drains < C) (hc : s.chan < C) :
      SchedStep C s ⟨s.pending, s.running, s.done, s.chan + 1, s.drains + 1⟩

def SchedInit (n : Nat) : SchedState := ⟨n, 0, 0, 0, 0⟩

def SchedReachable (C n : Nat) (s : SchedState) : Prop :=
  Relation.ReflTransGen (SchedStep C) (SchedInit n) s

def SchedInv (C n : Nat) (s : SchedState) : Prop :=
  s.chan = s.running + s.drains ∧ s.chan ≤ C ∧
  s.pending + s.running + s.done = n

theorem schedInv_reachable (C n : Nat) (s : SchedState)
    (h : SchedReachable C n s) : SchedInv C n s := by
  induction h with
  | refl => exact ⟨rfl, Nat.zero_le C, by simp [SchedInit]⟩
  | tail _ hbc ih =>
    obtain ⟨h1, h2, h3⟩ := ih
    cases hbc with
    | launch hp hc =>
      unfold SchedInv
      dsimp only
      refine ⟨?_, ?_, ?_⟩ <;> omega
    | finish hr hc =>
      unfold SchedInv
      dsimp only
      refine ⟨?_, ?_, ?_⟩ <;> omega
    | drain hp hd hc =>
      unfold SchedInv
      dsimp only
      refine ⟨?_, ?_, ?_⟩ <;> omega

/-- C8: in every reachable state of a run over `n` partitions, at most
`concurrency = 20` partition jobs are running simultaneously, and once
the acquire-drain barrier has completed all 20 sends (all launches
submitted), every one of the `n` jobs has completed. -/
theorem scheduler_bound (n : Nat) (s : SchedState)
    (h : SchedReachable concurrency n s) :
    s.running ≤ 20 ∧
    (s.drains = 20 → s.pending = 0 → s.done = n) := by
  obtain ⟨h1, h2, h3⟩ := schedInv_reachable concurrency n s h
  unfold concurrency at h2
  exact ⟨by omega, fun hd hp => by omega⟩

theorem scheduler_bound_witness :
    (⟨4, 1, 0, 1, 0⟩ : SchedState).running ≤ 20 ∧
    ((⟨4, 1, 0, 1, 0⟩ : SchedState).drains = 20 →
      (⟨4, 1, 0, 1, 0⟩ : SchedState).pending = 0 →
      (⟨4, 1, 0, 1, 0⟩ : SchedState).done = 5) :=
  scheduler_bound 5 ⟨4, 1, 0, 1, 0⟩
    (Relation.ReflTransGen.tail Relation.ReflTransGen.refl
      (SchedStep.launch (SchedInit 5) (by decide) (by decide)))

end Gocols
